import Mathlib

/-!
Verification of the resilient-extraction core of `chainspark-oss`.

This file shallow-embeds the core modules of
`patterns/resilient-extraction/lib/core`:

* `grounding.ts` — deterministic evidence-offset resolution
  (`computeEvidenceOffsets`);
* `extraction-pipeline.ts` — the orchestration pipeline
  (`extractFromPages`, `extractParallel`, `extractStreaming`,
  `deduplicateItems`, `calculateAverageConfidence`).

Modelling conventions:

* JavaScript strings become Lean `String`s (a `String` is a packed
  `List Char`; JavaScript's UTF-16 code-unit indexing is abstracted to
  character indexing, which agrees on the concrete inputs used here).
* JavaScript numbers become `Rat` (exact arithmetic; IEEE-754 rounding,
  `NaN` and JS number formatting are abstracted).
* Extracted items are dynamically typed objects in the source
  (`(item as any).evidence` etc.); they are embedded as a JSON-like
  inductive value `JVal`.
* The asynchronous external service is a deterministic oracle
  `svc : String → Except ExError (List JVal)` mapping chunk content to
  either a list of items or a classified failure; `rate-limiter.ts` and
  `errors.ts` are not part of the given sources, so the effect of
  `RateLimiter.execute` / `wrapError` on a deterministic task is modelled
  from the spec (see `rateLimiterExecute`, `rateLimiterStep`).
* Wall-clock fields (`processingTimeMs`) are omitted: real time is not
  representable in a shallow embedding.
-/

/-- A JSON-like dynamic value, modelling the untyped items the pipeline
manipulates (`z.infer<T>` values are plain JS objects at runtime). -/
inductive JVal where
  | null
  | bool (b : Bool)
  | num (q : Rat)
  | str (s : String)
  | arr (elems : List JVal)
  | obj (fields : List (String × JVal))

/-- Property access `v[name]` on a dynamic value: objects expose their
fields, every other value yields `undefined` (here `none`).  Fields of a
JS object are unique, so first-match lookup is adequate. -/
def getField (v : JVal) (name : String) : Option JVal :=
  match v with
  | .obj fields => lookupField fields name
  | _ => none
where
  lookupField : List (String × JVal) → String → Option JVal
    | [], _ => none
    | (k, x) :: rest, name => if k = name then some x else lookupField rest name

mutual

/-- Model of `JSON.stringify` on the embedded values.  String escaping and
JS number formatting are abstracted (any injective rendering serves the
dedup key role the pipeline uses it for). -/
def jsonStringify : JVal → String
  | .null => "null"
  | .bool true => "true"
  | .bool false => "false"
  | .num q => toString q
  | .str s => "\"" ++ s ++ "\""
  | .arr es => "[" ++ jsonStringifyElems es ++ "]"
  | .obj fs => "\x7b" ++ jsonStringifyFields fs ++ "\x7d"

/-- Comma-joined serialization of array elements. -/
def jsonStringifyElems : List JVal → String
  | [] => ""
  | [e] => jsonStringify e
  | e :: rest => jsonStringify e ++ "," ++ jsonStringifyElems rest

/-- Comma-joined serialization of object fields. -/
def jsonStringifyFields : List (String × JVal) → String
  | [] => ""
  | [(k, v)] => "\"" ++ k ++ "\":" ++ jsonStringify v
  | (k, v) :: rest => "\"" ++ k ++ "\":" ++ jsonStringify v ++ "," ++ jsonStringifyFields rest

end

/-! ## Grounding (`grounding.ts`) -/

/-- Structure `EvidenceSpan` from `types.ts` as used by `grounding.ts`:
a resolved location of evidence text in the source document. -/
structure EvidenceSpan where
  text : String
  startOffset : Nat
  endOffset : Nat
deriving DecidableEq, Repr

/-- Bounded linear search: the first index `j ≥ i` (scanning `fuel`
positions) at which `pat` occurs in `s`; this is the loop inside
JavaScript's `String.prototype.indexOf`. -/
def searchAux (s pat : List Char) (i : Nat) : Nat → Option Nat
  | 0 => none
  | fuel + 1 =>
    if List.isPrefixOf pat (s.drop i) then some i
    else searchAux s pat (i + 1) fuel

/-- Model of JavaScript `sourceText.indexOf(evidenceText, startFrom)` for a
non-negative `startFrom` (the source always passes a `Nat`-valued offset):
the least occurrence position `≥ startFrom`, scanning up to position
`s.length` inclusive. -/
def jsIndexOf (s pat : String) (start : Nat) : Option Nat :=
  if start ≤ s.data.length then searchAux s.data pat.data start (s.data.length + 1 - start)
  else none

/-- Model of JavaScript `s.substring(a, b)` for non-negative arguments:
both indices are clamped to `[0, length]` and swapped when out of order. -/
def jsSubstring (s : String) (a b : Nat) : String :=
  let n := s.data.length
  let a2 := min a n
  let b2 := min b n
  ⟨(s.data.drop (min a2 b2)).take (max a2 b2 - min a2 b2)⟩

/-- Function `computeEvidenceOffsets` from `grounding.ts`:

```ts
if (!evidenceText || !sourceText) return null;
const startOffset = sourceText.indexOf(evidenceText, startFrom);
if (startOffset === -1) return null;
return { text: evidenceText, startOffset,
         endOffset: startOffset + evidenceText.length };
```

The only falsy JS strings are empty strings. -/
def computeEvidenceOffsets (sourceText evidenceText : String) (startFrom : Nat := 0) :
    Option EvidenceSpan :=
  if evidenceText = "" ∨ sourceText = "" then none
  else
    match jsIndexOf sourceText evidenceText startFrom with
    | none => none
    | some startOffset =>
      some { text := evidenceText, startOffset := startOffset,
             endOffset := startOffset + evidenceText.length }

/-- Convenience predicate: `pat` occurs in `s` at character position `i`. -/
def occursAtB (s pat : String) (i : Nat) : Bool :=
  List.isPrefixOf pat.data (s.data.drop i)

/-! ### Grounding lemmas -/

lemma isPrefixOf_eq_true_iff (l1 l2 : List Char) :
    List.isPrefixOf l1 l2 = true ↔ ∃ t, l2 = l1 ++ t := by
  induction l1 generalizing l2 with
  | nil => simp [List.isPrefixOf]
  | cons a as ih =>
    cases l2 with
    | nil => simp [List.isPrefixOf]
    | cons b bs =>
      simp only [List.isPrefixOf, Bool.and_eq_true, beq_iff_eq, ih, List.cons_append,
        List.cons.injEq]
      constructor
      · rintro ⟨rfl, t, rfl⟩; exact ⟨t, rfl, rfl⟩
      · rintro ⟨t, rfl, rfl⟩; exact ⟨rfl, t, rfl⟩

lemma searchAux_some (s pat : List Char) :
    ∀ fuel i j, searchAux s pat i fuel = some j →
      i ≤ j ∧ List.isPrefixOf pat (s.drop j) = true ∧
        ∀ m, i ≤ m → m < j → List.isPrefixOf pat (s.drop m) = false := by
  intro fuel
  induction fuel with
  | zero => intro i j h; simp [searchAux] at h
  | succ fuel ih =>
    intro i j h
    simp only [searchAux] at h
    by_cases hp : List.isPrefixOf pat (s.drop i) = true
    · simp [hp] at h
      subst h
      exact ⟨le_refl i, hp, fun m him hmi => absurd him (by omega)⟩
    · simp [hp] at h
      obtain ⟨h1, h2, h3⟩ := ih (i + 1) j h
      refine ⟨by omega, h2, fun m him hmj => ?_⟩
      rcases Nat.eq_or_lt_of_le him with rfl | hlt
      · exact Bool.eq_false_iff.mpr hp
      · exact h3 m hlt hmj

lemma searchAux_none (s pat : List Char) :
    ∀ fuel i, searchAux s pat i fuel = none →
      ∀ j, i ≤ j → j < i + fuel → List.isPrefixOf pat (s.drop j) = false := by
  intro fuel
  induction fuel with
  | zero => intro i _ j h1 h2; omega
  | succ fuel ih =>
    intro i h j h1 h2
    simp only [searchAux] at h
    by_cases hp : List.isPrefixOf pat (s.drop i) = true
    · simp [hp] at h
    · simp [hp] at h
      rcases Nat.eq_or_lt_of_le h1 with rfl | hlt
      · exact Bool.eq_false_iff.mpr hp
      · exact ih (i + 1) h j hlt (by omega)

lemma no_occurrence_past_length (s pat : List Char) (hp : pat ≠ []) (j : Nat)
    (hj : s.length < j) : List.isPrefixOf pat (s.drop j) = false := by
  have hdrop : s.drop j = [] := List.drop_eq_nil_of_le (by omega)
  rw [hdrop]
  cases pat with
  | nil => exact absurd rfl hp
  | cons a as => rfl

lemma string_eq_empty_iff (s : String) : s = "" ↔ s.data = [] := by
  cases s with
  | mk d =>
    constructor
    · intro h; rw [h]
    · intro h; rw [show d = [] from h]

lemma string_mk_data (s : String) : String.mk s.data = s := by
  cases s; rfl

lemma take_length_append (l t : List Char) : (l ++ t).take l.length = l := by
  induction l with
  | nil => rfl
  | cons a as ih => simp [ih]

lemma jsSubstring_of_occurs (s pat : String) (i : Nat) (hp : pat ≠ "")
    (h : occursAtB s pat i = true) : jsSubstring s i (i + pat.length) = pat := by
  unfold occursAtB at h
  rw [isPrefixOf_eq_true_iff] at h
  obtain ⟨t, ht⟩ := h
  have hpd : pat.data ≠ [] := fun hh => hp ((string_eq_empty_iff pat).mpr hh)
  have hilen : i ≤ s.data.length := by
    by_contra hi
    have hdrop : s.data.drop i = [] := List.drop_eq_nil_of_le (by omega)
    rw [hdrop] at ht
    exact hpd (List.append_eq_nil.mp ht.symm).1
  have hlen : i + pat.data.length ≤ s.data.length := by
    have h1 := congrArg List.length ht
    simp only [List.length_drop, List.length_append] at h1
    omega
  have hplen : pat.length = pat.data.length := rfl
  unfold jsSubstring
  simp only [hplen]
  rw [min_eq_left hilen, min_eq_left hlen, min_eq_left (by omega),
    max_eq_right (by omega)]
  have : i + pat.data.length - i = pat.data.length := by omega
  rw [this, ht, take_length_append, string_mk_data]

lemma jsIndexOf_some (s pat : String) (start j : Nat)
    (h : jsIndexOf s pat start = some j) :
    start ≤ j ∧ occursAtB s pat j = true ∧
      ∀ m, start ≤ m → m < j → occursAtB s pat m = false := by
  unfold jsIndexOf at h
  by_cases hst : start ≤ s.data.length
  · simp only [if_pos hst] at h
    exact searchAux_some s.data pat.data _ start j h
  · rw [if_neg hst] at h
    exact Option.noConfusion h

lemma jsIndexOf_none (s pat : String) (start : Nat) (hp : pat ≠ "")
    (h : jsIndexOf s pat start = none) :
    ∀ j, start ≤ j → occursAtB s pat j = false := by
  intro j hj
  have hpd : pat.data ≠ [] := fun hh => hp ((string_eq_empty_iff pat).mpr hh)
  by_cases hjl : j ≤ s.data.length
  · unfold jsIndexOf at h
    by_cases hst : start ≤ s.data.length
    · simp only [if_pos hst] at h
      exact searchAux_none s.data pat.data _ start h j hj (by omega)
    · omega
  · exact no_occurrence_past_length s.data pat.data hpd j (by omega)

/-- Claim C1: whenever `computeEvidenceOffsets` returns a span, the span is
exactly the evidence text placed at the leftmost occurrence at or after
`startFrom`, with `endOffset = startOffset + length` and
`sourceText.substring(startOffset, endOffset) == evidenceText`; and it
returns not-found exactly when the evidence text is empty, the source is
empty, or the evidence does not occur in the source at or after
`startFrom`. -/
theorem computeEvidenceOffsets_spec (sourceText evidenceText : String) (startFrom : Nat) :
    (∀ sp, computeEvidenceOffsets sourceText evidenceText startFrom = some sp →
      sp.text = evidenceText ∧
      startFrom ≤ sp.startOffset ∧
      occursAtB sourceText evidenceText sp.startOffset = true ∧
      (∀ j, startFrom ≤ j → occursAtB sourceText evidenceText j = true →
        sp.startOffset ≤ j) ∧
      sp.endOffset = sp.startOffset + evidenceText.length ∧
      jsSubstring sourceText sp.startOffset sp.endOffset = evidenceText) ∧
    (computeEvidenceOffsets sourceText evidenceText startFrom = none ↔
      (evidenceText = "" ∨ sourceText = "" ∨
        ∀ j, startFrom ≤ j → occursAtB sourceText evidenceText j = false)) := by
  by_cases he : evidenceText = "" ∨ sourceText = ""
  · constructor
    · intro sp hsp
      unfold computeEvidenceOffsets at hsp
      simp [he] at hsp
    · constructor
      · intro _
        rcases he with h | h
        · exact Or.inl h
        · exact Or.inr (Or.inl h)
      · intro _
        unfold computeEvidenceOffsets
        simp [he]
  · push_neg at he
    obtain ⟨hev, hsrc⟩ := he
    unfold computeEvidenceOffsets
    simp only [hev, hsrc, or_self, if_false]
    cases hidx : jsIndexOf sourceText evidenceText startFrom with
    | none =>
      constructor
      · intro sp hsp; simp at hsp
      · simp only [true_iff]
        exact Or.inr (Or.inr (jsIndexOf_none sourceText evidenceText startFrom hev hidx))
    | some k =>
      obtain ⟨hk1, hk2, hk3⟩ := jsIndexOf_some sourceText evidenceText startFrom k hidx
      constructor
      · intro sp hsp
        simp only [Option.some.injEq] at hsp
        subst hsp
        refine ⟨rfl, hk1, hk2, ?_, rfl, jsSubstring_of_occurs _ _ _ hev hk2⟩
        intro j hj hocc
        show k ≤ j
        by_contra hlt
        have hfalse := hk3 j hj (by omega)
        rw [hocc] at hfalse
        exact Bool.noConfusion hfalse
      · constructor
        · intro h; simp at h
        · intro h
          rcases h with h | h | h
          · exact h.elim
          · exact h.elim
          · have hfalse := h k hk1
            rw [hk2] at hfalse
            exact Bool.noConfusion hfalse

/-! ## Deduplication (`extraction-pipeline.ts`, `deduplicateItems`) -/

/-- Model of JavaScript `s.trim()`: strip leading and trailing whitespace
(ASCII whitespace; full Unicode trimming is abstracted). -/
def jsTrim (s : String) : String :=
  ⟨((s.data.dropWhile Char.isWhitespace).reverse.dropWhile Char.isWhitespace).reverse⟩

/-- Model of JavaScript `s.toLowerCase()` (ASCII case mapping; full Unicode
case mapping is abstracted). -/
def jsToLower (s : String) : String := ⟨s.data.map Char.toLower⟩

/-- Optional-chaining lookup `(item as any).evidence?.descriptionSpan?.text`
followed by the truthiness test of the source's Pass 1, yielding the text
when it is a non-empty string.  In the source `text` is typed `string`
(interface `EvidenceSpan`); a truthy non-string value there would make the
subsequent `.trim()` call throw, so such malformed items are outside the
embedded domain and fall through to the next pass here. -/
def evidenceDescriptionText (item : JVal) : Option String :=
  match getField item "evidence" with
  | none => none
  | some ev =>
    match getField ev "descriptionSpan" with
    | none => none
    | some ds =>
      match getField ds "text" with
      | some (.str s) => if s = "" then none else some s
      | _ => none

/-- Key derivation of `deduplicateItems` (source lines 366–380):

```ts
const evidence = (item as any).evidence;
if (evidence?.descriptionSpan?.text) {
    key = `evidence:${evidence.descriptionSpan.text.trim()}`;
} else if (typeof (item as any).description === "string") {
    key = `desc:${(item as any).description.toLowerCase().trim()}`;
} else {
    key = `json:${JSON.stringify(item)}`;
}
``` -/
def dedupKey (item : JVal) : String :=
  match evidenceDescriptionText item with
  | some s => "evidence:" ++ jsTrim s
  | none =>
    match getField item "description" with
    | some (.str d) => "desc:" ++ jsTrim (jsToLower d)
    | _ => "json:" ++ jsonStringify item

/-- The tier (pass) of the key strategy that fires for an item; mirrors the
branch structure of `dedupKey`. -/
inductive DedupTier where
  | evidenceTier
  | descTier
  | jsonTier
deriving DecidableEq, Repr

/-- Branch selector of `dedupKey`. -/
def dedupTier (item : JVal) : DedupTier :=
  match evidenceDescriptionText item with
  | some _ => .evidenceTier
  | none =>
    match getField item "description" with
    | some (.str _) => .descTier
    | _ => .jsonTier

/-- Loop of `deduplicateItems`: `seen` is the set of keys already kept
(a JS `Set<string>`, modelled as the list of inserted keys — only
membership is observed). -/
def dedupGo (seen : List String) : List JVal → List JVal
  | [] => []
  | item :: rest =>
    let key := dedupKey item
    if key ∈ seen then dedupGo seen rest
    else item :: dedupGo (key :: seen) rest

/-- Function `deduplicateItems` from `extraction-pipeline.ts`
(lines 358–386): single pass, first occurrence of each key wins. -/
def deduplicateItems (items : List JVal) : List JVal := dedupGo [] items

/-! ### Deduplication lemmas -/

lemma dedupGo_idem (l : List JVal) : ∀ seen, dedupGo seen (dedupGo seen l) = dedupGo seen l := by
  induction l with
  | nil => intro seen; rfl
  | cons x xs ih =>
    intro seen
    by_cases h : dedupKey x ∈ seen
    · simp only [dedupGo, if_pos h]
      exact ih seen
    · simp only [dedupGo, if_neg h]
      rw [ih (dedupKey x :: seen)]

/-- Claim C2: deduplication is idempotent. -/
theorem deduplicateItems_idempotent (x : List JVal) :
    deduplicateItems (deduplicateItems x) = deduplicateItems x :=
  dedupGo_idem x []

/-- Declarative rendering of the claimed dedup contract: keep the head,
then drop every later item whose key matches it, recursively. -/
def specDedup (key : JVal → String) : List JVal → List JVal
  | [] => []
  | x :: xs => x :: specDedup key (xs.filter fun y => key y != key x)
termination_by l => l.length
decreasing_by
  exact Nat.lt_succ_of_le (List.length_filter_le _ _)

lemma notMem_cons_bool (a b : String) (seen : List String) :
    (decide (a ∉ seen) && (a != b)) = decide (a ∉ b :: seen) := by
  by_cases h1 : a ∈ seen <;> by_cases h2 : a = b <;> simp [h1, h2]

lemma dedupGo_eq_specDedup (l : List JVal) :
    ∀ seen, dedupGo seen l = specDedup dedupKey (l.filter fun y => decide (dedupKey y ∉ seen)) := by
  induction l with
  | nil => intro seen; simp only [List.filter_nil, specDedup, dedupGo]
  | cons x xs ih =>
    intro seen
    by_cases h : dedupKey x ∈ seen
    · simp only [dedupGo, if_pos h, List.filter_cons, decide_eq_true_eq]
      rw [if_neg (by simp [h])]
      exact ih seen
    · simp only [dedupGo, if_neg h, List.filter_cons]
      rw [if_pos (by simp [h])]
      simp only [specDedup]
      rw [ih (dedupKey x :: seen), List.filter_filter]
      refine congrArg (fun l => x :: specDedup dedupKey l) ?_
      apply List.filter_congr
      intro y _
      rw [← notMem_cons_bool (dedupKey y) (dedupKey x) seen]
      exact Bool.and_comm _ _

/-- Claim C3 (amended): `deduplicateItems` keeps the first occurrence per
derived key, preserves relative order, and drops an item exactly when an
earlier item derived the same (tier-tagged) key. -/
theorem deduplicateItems_first_occurrence (items : List JVal) :
    deduplicateItems items = specDedup dedupKey items := by
  unfold deduplicateItems
  rw [dedupGo_eq_specDedup items []]
  congr 1
  apply List.filter_eq_self.mpr
  intro y _
  simp

/-- Key derivation exactly as claim C3 words it: the derived key carries no
tier tag (compare `dedupKey`, whose keys are prefixed by the tier that
produced them). -/
def claimKeyUntagged (item : JVal) : String :=
  match evidenceDescriptionText item with
  | some s => jsTrim s
  | none =>
    match getField item "description" with
    | some (.str d) => jsTrim (jsToLower d)
    | _ => jsonStringify item

/-- Item whose Pass-1 evidence description-span text is `"abc"`. -/
def itemWithEvidenceAbc : JVal :=
  .obj [("evidence", .obj [("descriptionSpan", .obj [("text", .str "abc")])])]

/-- Item without evidence whose `description` field is `"abc"`. -/
def itemWithDescriptionAbc : JVal :=
  .obj [("description", .str "abc")]

/-- Counterexample to claim C3 as stated: these two items derive the same
untagged key — one through the evidence tier, the other through the
description tier — yet `deduplicateItems` keeps both, so an item is not
dropped whenever some earlier item has the same claim-derived key. -/
theorem deduplicateItems_untagged_key_counterexample :
    claimKeyUntagged itemWithEvidenceAbc = claimKeyUntagged itemWithDescriptionAbc ∧
    deduplicateItems [itemWithEvidenceAbc, itemWithDescriptionAbc] =
      [itemWithEvidenceAbc, itemWithDescriptionAbc] := by
  exact ⟨rfl, rfl⟩

lemma string_append_data (a b : String) : (a ++ b).data = a.data ++ b.data := rfl

lemma ne_of_head_char_ne (x y : String) (h : x.data.head? ≠ y.data.head?) : x ≠ y :=
  fun e => h (congrArg (fun z => z.data.head?) e)

lemma evidence_key_ne_desc_key (s t : String) : "evidence:" ++ s ≠ "desc:" ++ t := by
  apply ne_of_head_char_ne
  rw [string_append_data, string_append_data]
  have h1 : ("evidence:".data ++ s.data).head? = some 'e' := rfl
  have h2 : ("desc:".data ++ t.data).head? = some 'd' := rfl
  rw [h1, h2]
  decide

lemma evidence_key_ne_json_key (s t : String) : "evidence:" ++ s ≠ "json:" ++ t := by
  apply ne_of_head_char_ne
  rw [string_append_data, string_append_data]
  have h1 : ("evidence:".data ++ s.data).head? = some 'e' := rfl
  have h2 : ("json:".data ++ t.data).head? = some 'j' := rfl
  rw [h1, h2]
  decide

lemma desc_key_ne_json_key (s t : String) : "desc:" ++ s ≠ "json:" ++ t := by
  apply ne_of_head_char_ne
  rw [string_append_data, string_append_data]
  have h1 : ("desc:".data ++ s.data).head? = some 'd' := rfl
  have h2 : ("json:".data ++ t.data).head? = some 'j' := rfl
  rw [h1, h2]
  decide

/-- Tag with which each tier of the key strategy marks its keys. -/
def tierTag : DedupTier → String
  | .evidenceTier => "evidence:"
  | .descTier => "desc:"
  | .jsonTier => "json:"

lemma dedupKey_eq_tag_append (item : JVal) :
    ∃ s, dedupKey item = tierTag (dedupTier item) ++ s := by
  unfold dedupKey dedupTier
  cases h1 : evidenceDescriptionText item with
  | some s => exact ⟨jsTrim s, rfl⟩
  | none =>
    cases h2 : getField item "description" with
    | some v =>
      cases v with
      | str d => exact ⟨jsTrim (jsToLower d), rfl⟩
      | null => exact ⟨jsonStringify item, rfl⟩
      | bool x => exact ⟨jsonStringify item, rfl⟩
      | num x => exact ⟨jsonStringify item, rfl⟩
      | arr x => exact ⟨jsonStringify item, rfl⟩
      | obj x => exact ⟨jsonStringify item, rfl⟩
    | none => exact ⟨jsonStringify item, rfl⟩

lemma tag_append_ne (t1 t2 : DedupTier) (h : t1 ≠ t2) (s t : String) :
    tierTag t1 ++ s ≠ tierTag t2 ++ t := by
  cases t1 <;> cases t2 <;>
    first
      | exact absurd rfl h
      | exact evidence_key_ne_desc_key s t
      | exact evidence_key_ne_json_key s t
      | exact desc_key_ne_json_key s t
      | exact (evidence_key_ne_desc_key t s).symm
      | exact (evidence_key_ne_json_key t s).symm
      | exact (desc_key_ne_json_key t s).symm

/-- Claim C10: keys derived by different tiers of the key strategy never
compare equal, because each key carries a tier-distinct prefix; in
particular an item keyed by the description tier is never collapsed with
an item keyed by the evidence tier. -/
theorem dedupKey_tier_distinct :
    (∀ a b : JVal, dedupTier a ≠ dedupTier b → dedupKey a ≠ dedupKey b) ∧
    (∀ a b : JVal, dedupTier a = DedupTier.evidenceTier → dedupTier b = DedupTier.descTier →
      deduplicateItems [a, b] = [a, b]) := by
  have key_ne : ∀ a b : JVal, dedupTier a ≠ dedupTier b → dedupKey a ≠ dedupKey b := by
    intro a b hne
    obtain ⟨s, hs⟩ := dedupKey_eq_tag_append a
    obtain ⟨t, ht⟩ := dedupKey_eq_tag_append b
    rw [hs, ht]
    exact tag_append_ne _ _ hne s t
  refine ⟨key_ne, ?_⟩
  intro a b ha hb
  have hne : dedupKey b ≠ dedupKey a := by
    apply Ne.symm
    apply key_ne
    rw [ha, hb]
    decide
  show dedupGo [] [a, b] = [a, b]
  simp only [dedupGo]
  rw [if_neg (List.not_mem_nil _), if_neg (by simpa using hne)]

/-- Item whose Pass-1 evidence description-span text is
`"Web Development Services"`. -/
def itemWithEvidenceWeb : JVal :=
  .obj [("evidence", .obj [("descriptionSpan", .obj [("text", .str "Web Development Services")])]),
        ("total", .num 6000)]

/-- Item without evidence whose `description` field is the same text
`"Web Development Services"`. -/
def itemWithDescriptionWeb : JVal :=
  .obj [("description", .str "Web Development Services")]

/-- Witness for claim C10: an item without evidence whose description text
equals another item's evidence description-span text is not collapsed
with it. -/
theorem dedupKey_tier_distinct_witness :
    deduplicateItems [itemWithEvidenceWeb, itemWithDescriptionWeb] =
      [itemWithEvidenceWeb, itemWithDescriptionWeb] :=
  dedupKey_tier_distinct.2 itemWithEvidenceWeb itemWithDescriptionWeb rfl rfl

/-- Witness for claim C1 at the spec's concrete scenario
`resolveOffsets("Total: $1,234.56", "$1,234.56")`. -/
theorem computeEvidenceOffsets_spec_witness :
    occursAtB "Total: $1,234.56" "$1,234.56" 7 = true ∧
    jsSubstring "Total: $1,234.56" 7 16 = "$1,234.56" := by
  have h := (computeEvidenceOffsets_spec "Total: $1,234.56" "$1,234.56" 0).1
    ⟨"$1,234.56", 7, 16⟩ (by decide)
  exact ⟨h.2.2.1, h.2.2.2.2.2⟩

/-! ## Orchestration (`extraction-pipeline.ts`) -/

/-- Classified failure raised by the external structured-generation call,
as surfaced by `wrapError` (an `ExtractionError` with `message` and
`code`). -/
structure ExError where
  message : String
  code : String
deriving DecidableEq, Repr

/-- Structure `PageChunk` from `types.ts` as used by the pipeline: one unit
of input text with its sequence number. -/
structure PageChunk where
  content : String
  pageNumber : Nat
deriving DecidableEq, Repr

/-- Structure `PageExtractionResult` from `types.ts` as used by the
pipeline (the spec's `ChunkResult`). -/
structure PageExtractionResult where
  items : List JVal
  pageNumber : Nat
  success : Bool
  error : Option String := none
  errorCode : Option String := none

/-- Aggregate metrics of an `ExtractionResult`.  The wall-clock field
`processingTimeMs` is omitted (real time is outside the embedding). -/
structure ExtractionMetrics where
  totalItems : Nat
  itemsBeforeDedup : Nat
  averageConfidence : Option Rat

/-- Structure `ExtractionResult` from `types.ts` as used by the pipeline
(the spec's `AggregateResult`). -/
structure ExtractionResult where
  items : List JVal
  pagesProcessed : Nat
  pagesFailed : Nat
  pageResults : List PageExtractionResult
  metrics : ExtractionMetrics

/-- Modelled from the spec: `rate-limiter.ts` is not under the given
sources.  Per spec §4.1, `RateLimiter.execute(task, label)` gates and
retries the task; admission and backoff affect timing only, so for a
deterministic task the value-level effect is: return the task's items on
success, and after a non-retryable failure or exhausted retries propagate
the last failure wrapped with `label` for context. -/
def rateLimiterExecute (svc : String → Except ExError (List JVal))
    (content label : String) : Except ExError (List JVal) :=
  match svc content with
  | .ok items => .ok items
  | .error e => .error { message := label ++ ": " ++ e.message, code := e.code }

/-- Label passed to the scheduler by all three orchestration modes. -/
def pageLabel (pageNumber : Nat) : String :=
  "Page " ++ toString pageNumber ++ " extraction"

/-- Per-chunk task body shared by all three orchestration modes
(`try { ... rateLimiter.execute ... } catch { ... }`): a successful call
yields a successful `PageExtractionResult` carrying the items; a failure
is caught and recorded as a failed result with the error's message and
code — it never propagates. -/
def processChunk (svc : String → Except ExError (List JVal)) (chunk : PageChunk) :
    PageExtractionResult :=
  match rateLimiterExecute svc chunk.content (pageLabel chunk.pageNumber) with
  | .ok items => { items := items, pageNumber := chunk.pageNumber, success := true }
  | .error e =>
    { items := [], pageNumber := chunk.pageNumber, success := false,
      error := some e.message, errorCode := some e.code }

/-- Value of `item.confidence || 0` inside the reduce of
`calculateAverageConfidence`: a numeric confidence contributes itself
(`0 || 0` is `0`), anything absent or falsy contributes `0`.  A truthy
non-numeric confidence would poison the JS sum (string concatenation /
`NaN`); such items are excluded by the hypothesis of the theorem below. -/
def confOrZero (item : JVal) : Rat :=
  match getField item "confidence" with
  | some (.num q) => q
  | _ => 0

/-- The `confidence` field of an item when it is numeric. -/
def confidenceOf (item : JVal) : Option Rat :=
  match getField item "confidence" with
  | some (.num q) => some q
  | _ => none

/-- Function `calculateAverageConfidence` (source lines 336–345):

```ts
if (items.length > 0 && typeof items[0].confidence === "number") {
    const totalConfidence = items.reduce(
        (sum, item) => sum + (item.confidence || 0), 0);
    return totalConfidence / items.length;
}
return undefined;
``` -/
def calculateAverageConfidence : List JVal → Option Rat
  | [] => none
  | first :: rest =>
    match getField first "confidence" with
    | some (.num _) =>
      some (((first :: rest).foldl (fun sum item => sum + confOrZero item) 0) /
        ((first :: rest).length : Rat))
    | _ => none

/-- Loop body of `extractFromPages`: the accumulator pairs the
`pageResults` array with the `allItems` array; each iteration appends one
result and, on success, the returned items. -/
def seqStep (svc : String → Except ExError (List JVal))
    (acc : List PageExtractionResult × List JVal) (chunk : PageChunk) :
    List PageExtractionResult × List JVal :=
  match rateLimiterExecute svc chunk.content (pageLabel chunk.pageNumber) with
  | .ok items =>
    (acc.1 ++ [{ items := items, pageNumber := chunk.pageNumber, success := true }],
     acc.2 ++ items)
  | .error e =>
    (acc.1 ++ [{ items := [], pageNumber := chunk.pageNumber, success := false,
                 error := some e.message, errorCode := some e.code }],
     acc.2)

/-- Method `extractFromPages` (source lines 152–223): sequential mode.
Chunks are processed in input order; each failure is caught and recorded;
aggregation deduplicates the accumulated items and computes metrics. -/
def extractFromPages (svc : String → Except ExError (List JVal))
    (chunks : List PageChunk) : ExtractionResult :=
  let st := chunks.foldl (seqStep svc) ([], [])
  let pageResults := st.1
  let allItems := deduplicateItems st.2
  { items := allItems,
    pagesProcessed := chunks.length,
    pagesFailed := (pageResults.filter fun r => !r.success).length,
    pageResults := pageResults,
    metrics := {
      totalItems := allItems.length,
      itemsBeforeDedup := pageResults.foldl (fun sum r => sum + r.items.length) 0,
      averageConfidence := calculateAverageConfidence allItems } }

/-- Method `extractParallel` (source lines 231–288): bounded-parallel
mode.  One task is launched per chunk; `Promise.all` delivers the settled
results in input order regardless of completion order, and with a
deterministic service each task settles to `processChunk`'s value. -/
def extractParallel (svc : String → Except ExError (List JVal))
    (chunks : List PageChunk) : ExtractionResult :=
  let pageResults := chunks.map (processChunk svc)
  let allItems0 := pageResults.foldl (fun acc r => acc ++ r.items) []
  let itemsBeforeDedup := allItems0.length
  let allItems := deduplicateItems allItems0
  { items := allItems,
    pagesProcessed := chunks.length,
    pagesFailed := (pageResults.filter fun r => !r.success).length,
    pageResults := pageResults,
    metrics := {
      totalItems := allItems.length,
      itemsBeforeDedup := itemsBeforeDedup,
      averageConfidence := calculateAverageConfidence allItems } }

/-- Race loop of `extractStreaming` (source lines 296–334): the pool holds
the pending tasks (with a deterministic service, each task's eventual
value); each iteration `Promise.race`s the pool, yields whichever task
finishes first, and removes exactly that task.  The completion order is
external nondeterminism, supplied as a choice sequence: step `k` picks the
`(k % pool.size)`-th pending task as the one that finishes first; when the
choice sequence is exhausted the remaining tasks finish in pool order. -/
def racePool (pool : List PageExtractionResult) (order : List Nat) :
    List PageExtractionResult :=
  match pool, order with
  | [], _ => []
  | p :: ps, [] => p :: ps
  | p :: ps, k :: rest =>
    (p :: ps).get ⟨k % (p :: ps).length, Nat.mod_lt _ (Nat.succ_pos _)⟩ ::
      racePool ((p :: ps).eraseIdx (k % (p :: ps).length)) rest
termination_by order.length

/-- Method `extractStreaming` (source lines 296–334): launch one task per
chunk, then yield results in completion order via the race loop.  The
generator's yielded sequence is returned as a list. -/
def extractStreaming (svc : String → Except ExError (List JVal))
    (chunks : List PageChunk) (order : List Nat) : List PageExtractionResult :=
  racePool (chunks.map (processChunk svc)) order

/-! ### Orchestration lemmas -/

lemma seqStep_eq (svc : String → Except ExError (List JVal))
    (acc : List PageExtractionResult × List JVal) (chunk : PageChunk) :
    seqStep svc acc chunk =
      (acc.1 ++ [processChunk svc chunk], acc.2 ++ (processChunk svc chunk).items) := by
  unfold seqStep processChunk
  cases rateLimiterExecute svc chunk.content (pageLabel chunk.pageNumber) with
  | ok items => rfl
  | error e => simp

lemma seq_foldl_eq (svc : String → Except ExError (List JVal)) :
    ∀ (chunks : List PageChunk) (rs : List PageExtractionResult) (its : List JVal),
      chunks.foldl (seqStep svc) (rs, its) =
        (rs ++ chunks.map (processChunk svc),
         its ++ ((chunks.map (processChunk svc)).map (fun r => r.items)).flatten) := by
  intro chunks
  induction chunks with
  | nil => intro rs its; simp
  | cons c cs ih =>
    intro rs its
    simp only [List.foldl_cons, List.map_cons, List.flatten_cons]
    rw [seqStep_eq, ih]
    simp [List.append_assoc]

lemma extractFromPages_pageResults (svc : String → Except ExError (List JVal))
    (chunks : List PageChunk) :
    (extractFromPages svc chunks).pageResults = chunks.map (processChunk svc) := by
  unfold extractFromPages
  rw [seq_foldl_eq]
  simp

lemma extractFromPages_items (svc : String → Except ExError (List JVal))
    (chunks : List PageChunk) :
    (extractFromPages svc chunks).items =
      deduplicateItems ((chunks.map (processChunk svc)).map (fun r => r.items)).flatten := by
  unfold extractFromPages
  rw [seq_foldl_eq]
  simp

lemma parallel_foldl_items :
    ∀ (l : List PageExtractionResult) (acc : List JVal),
      l.foldl (fun acc r => acc ++ r.items) acc = acc ++ (l.map (fun r => r.items)).flatten := by
  intro l
  induction l with
  | nil => intro acc; simp
  | cons r rest ih =>
    intro acc
    simp only [List.foldl_cons, List.map_cons, List.flatten_cons]
    rw [ih]
    simp [List.append_assoc]

lemma extractParallel_items (svc : String → Except ExError (List JVal))
    (chunks : List PageChunk) :
    (extractParallel svc chunks).items =
      deduplicateItems ((chunks.map (processChunk svc)).map (fun r => r.items)).flatten := by
  unfold extractParallel
  dsimp only
  rw [parallel_foldl_items]
  simp

lemma mem_zip_map_self {α β : Type} (f : α → β) :
    ∀ (l : List α) (b : β) (a : α), (b, a) ∈ (l.map f).zip l → b = f a := by
  intro l
  induction l with
  | nil => intro b a h; simp at h
  | cons x xs ih =>
    intro b a h
    simp only [List.map_cons, List.zip_cons_cons, List.mem_cons, Prod.mk.injEq] at h
    rcases h with ⟨h1, h2⟩ | h
    · rw [h1, h2]
    · exact ih b a h

lemma processChunk_ok (svc : String → Except ExError (List JVal)) (c : PageChunk)
    (items : List JVal) (h : svc c.content = .ok items) :
    processChunk svc c = { items := items, pageNumber := c.pageNumber, success := true } := by
  unfold processChunk rateLimiterExecute
  rw [h]

lemma processChunk_error (svc : String → Except ExError (List JVal)) (c : PageChunk)
    (e : ExError) (h : svc c.content = .error e) :
    processChunk svc c =
      { items := [], pageNumber := c.pageNumber, success := false,
        error := some (pageLabel c.pageNumber ++ ": " ++ e.message),
        errorCode := some e.code } := by
  unfold processChunk rateLimiterExecute
  rw [h]

lemma pageLabel_msg_head (n : Nat) (m : String) :
    (pageLabel n ++ ": " ++ m).data.head? = some 'P' := rfl

lemma pageLabel_append_ne_empty (n : Nat) (m : String) : pageLabel n ++ ": " ++ m ≠ "" := by
  apply ne_of_head_char_ne
  rw [pageLabel_msg_head]
  decide

/-- Claim C4: in sequential mode every chunk yields exactly one
`ChunkResult` in input order; a chunk whose call fails yields a failed
result with empty items and a non-empty error message while processing
continues (the orchestration itself never fails: `extractFromPages` is a
total function whose failures live only inside `PageExtractionResult`s);
and `pagesFailed` counts exactly the failed results. -/
theorem extractFromPages_error_isolation (svc : String → Except ExError (List JVal))
    (chunks : List PageChunk) :
    (extractFromPages svc chunks).pageResults.length = chunks.length ∧
    (∀ pr c, (pr, c) ∈ (extractFromPages svc chunks).pageResults.zip chunks →
      pr.pageNumber = c.pageNumber ∧
      (∀ e, svc c.content = .error e →
        pr.success = false ∧ pr.items = [] ∧ ∃ m, pr.error = some m ∧ m ≠ "") ∧
      (∀ its, svc c.content = .ok its → pr.success = true ∧ pr.items = its)) ∧
    (extractFromPages svc chunks).pagesFailed =
      ((extractFromPages svc chunks).pageResults.filter fun r => !r.success).length := by
  refine ⟨?_, ?_, ?_⟩
  · rw [extractFromPages_pageResults, List.length_map]
  · intro pr c hmem
    rw [extractFromPages_pageResults] at hmem
    have hpr : pr = processChunk svc c := mem_zip_map_self (processChunk svc) chunks pr c hmem
    subst hpr
    refine ⟨?_, ?_, ?_⟩
    · cases h : svc c.content with
      | ok its => rw [processChunk_ok svc c its h]
      | error e => rw [processChunk_error svc c e h]
    · intro e he
      rw [processChunk_error svc c e he]
      exact ⟨rfl, rfl, _, rfl, pageLabel_append_ne_empty _ _⟩
    · intro its h
      rw [processChunk_ok svc c its h]
      exact ⟨rfl, rfl⟩
  · rfl

/-- Item returned for chunk 1 of the three-chunk scenario. -/
def scenarioItem1 : JVal := .obj [("description", .str "first item")]

/-- Item returned for chunk 3 of the three-chunk scenario. -/
def scenarioItem3 : JVal := .obj [("description", .str "third item")]

/-- Terminal (non-retryable) schema-validation failure thrown for the
second chunk of the scenario. -/
def scenarioValidationError : ExError :=
  { message := "LLM output did not conform to the item schema",
    code := "SCHEMA_VALIDATION" }

/-- First chunk of the scenario. -/
def scenarioChunk1 : PageChunk := { content := "alpha", pageNumber := 1 }

/-- Second chunk of the scenario (its call always fails). -/
def scenarioChunk2 : PageChunk := { content := "beta", pageNumber := 2 }

/-- Third chunk of the scenario. -/
def scenarioChunk3 : PageChunk := { content := "gamma", pageNumber := 3 }

/-- The three-chunk input of the scenario. -/
def scenarioChunks : List PageChunk := [scenarioChunk1, scenarioChunk2, scenarioChunk3]

/-- Deterministic service for the scenario: chunk 2 always throws a
terminal validation error, chunks 1 and 3 succeed. -/
def scenarioSvc (content : String) : Except ExError (List JVal) :=
  if content = "beta" then .error scenarioValidationError
  else if content = "alpha" then .ok [scenarioItem1]
  else .ok [scenarioItem3]

/-- Failed result recorded for chunk 2 of the scenario. -/
def scenarioFailedResult : PageExtractionResult :=
  { items := [], pageNumber := 2, success := false,
    error := some "Page 2 extraction: LLM output did not conform to the item schema",
    errorCode := some "SCHEMA_VALIDATION" }

/-- Witness for claim C4 at the spec's three-chunk scenario: chunk 2 fails
terminally, chunks 1 and 3 succeed with their items, and `pagesFailed`
is 1. -/
theorem extractFromPages_error_isolation_witness :
    (extractFromPages scenarioSvc scenarioChunks).pagesFailed = 1 ∧
    ((extractFromPages scenarioSvc scenarioChunks).pageResults.map
      (fun r => (r.success, r.items))) =
      [(true, [scenarioItem1]), (false, []), (true, [scenarioItem3])] ∧
    scenarioFailedResult.success = false ∧ scenarioFailedResult.items = [] ∧
    ∃ m, scenarioFailedResult.error = some m ∧ m ≠ "" := by
  have hm : (scenarioFailedResult, scenarioChunk2) ∈
      (extractFromPages scenarioSvc scenarioChunks).pageResults.zip scenarioChunks :=
    List.Mem.tail _ (List.Mem.head _)
  have h := (extractFromPages_error_isolation scenarioSvc scenarioChunks).2.1
    scenarioFailedResult scenarioChunk2 hm
  have hfail := h.2.1 scenarioValidationError rfl
  exact ⟨rfl, rfl, hfail.1, hfail.2.1, hfail.2.2⟩

/-! ### Aggregation metrics (claims C5 and C9) -/

lemma extractParallel_pageResults (svc : String → Except ExError (List JVal))
    (chunks : List PageChunk) :
    (extractParallel svc chunks).pageResults = chunks.map (processChunk svc) := rfl

lemma processChunk_failed_items (svc : String → Except ExError (List JVal)) (c : PageChunk)
    (h : (processChunk svc c).success = false) : (processChunk svc c).items = [] := by
  cases hc : svc c.content with
  | ok its => rw [processChunk_ok svc c its hc] at h; exact Bool.noConfusion h
  | error e => rw [processChunk_error svc c e hc]

lemma flatten_success_filter (rs : List PageExtractionResult)
    (h : ∀ r ∈ rs, r.success = false → r.items = []) :
    ((rs.filter fun r => r.success).map (fun r => r.items)).flatten =
      (rs.map (fun r => r.items)).flatten := by
  induction rs with
  | nil => rfl
  | cons r rest ih =>
    simp only [List.filter_cons]
    by_cases hs : r.success = true
    · rw [if_pos (by simpa using hs)]
      simp only [List.map_cons, List.flatten_cons]
      rw [ih fun x hx => h x (List.mem_cons_of_mem _ hx)]
    · rw [if_neg (by simpa using hs)]
      have hnil : r.items = [] := h r (List.mem_cons_self _ _) (by simpa using hs)
      simp only [List.map_cons, List.flatten_cons, hnil, List.nil_append]
      exact ih fun x hx => h x (List.mem_cons_of_mem _ hx)

lemma foldl_add_item_lengths :
    ∀ (l : List PageExtractionResult) (a : Nat),
      l.foldl (fun sum r => sum + r.items.length) a =
        a + (l.map fun r => r.items.length).sum := by
  intro l
  induction l with
  | nil => intro a; simp
  | cons r rest ih =>
    intro a
    simp only [List.foldl_cons, List.map_cons, List.sum_cons]
    rw [ih]
    omega

/-- The aggregation contract shared by sequential and bounded-parallel
modes, with the successful chunks' items concatenated in input order. -/
def AggregatesCorrectly (chunks : List PageChunk) (r : ExtractionResult) : Prop :=
  r.metrics.itemsBeforeDedup = (r.pageResults.map fun pr => pr.items.length).sum ∧
  r.metrics.totalItems = r.items.length ∧
  r.items = deduplicateItems
    (((r.pageResults.filter fun pr => pr.success).map fun pr => pr.items).flatten) ∧
  r.pagesProcessed = chunks.length

lemma map_processChunk_failed_items (svc : String → Except ExError (List JVal))
    (chunks : List PageChunk) :
    ∀ r ∈ chunks.map (processChunk svc), r.success = false → r.items = [] := by
  intro r hr hfail
  obtain ⟨c, _, rfl⟩ := List.mem_map.mp hr
  exact processChunk_failed_items svc c hfail

/-- Claim C5 (amended): in both sequential and bounded-parallel modes,
`itemsBeforeDedup` is the sum of item counts over all chunk results,
`totalItems` is the length of the deduplicated list, `items` is the
deduplication of the successful chunks' items concatenated in input order
(the order `Promise.all` assembles results, not completion order), and
`pagesProcessed` is the number of input chunks. -/
theorem extraction_metrics_spec (svc : String → Except ExError (List JVal))
    (chunks : List PageChunk) :
    AggregatesCorrectly chunks (extractFromPages svc chunks) ∧
    AggregatesCorrectly chunks (extractParallel svc chunks) := by
  constructor
  · refine ⟨?_, rfl, ?_, rfl⟩
    · have h1 : (extractFromPages svc chunks).metrics.itemsBeforeDedup =
          (extractFromPages svc chunks).pageResults.foldl
            (fun sum r => sum + r.items.length) 0 := rfl
      rw [h1, foldl_add_item_lengths]
      omega
    · rw [extractFromPages_items, extractFromPages_pageResults,
        flatten_success_filter _ (map_processChunk_failed_items svc chunks)]
  · refine ⟨?_, rfl, ?_, rfl⟩
    · have h1 : (extractParallel svc chunks).metrics.itemsBeforeDedup =
          ((extractParallel svc chunks).pageResults.foldl
            (fun acc r => acc ++ r.items) []).length := rfl
      rw [h1, parallel_foldl_items]
      simp [Function.comp]
      rfl
    · rw [extractParallel_items, extractParallel_pageResults,
        flatten_success_filter _ (map_processChunk_failed_items svc chunks)]

/-- Claim C9: with a deterministic external service, sequential and
bounded-parallel modes produce identical post-deduplication item lists. -/
theorem sequential_parallel_items_eq (svc : String → Except ExError (List JVal))
    (chunks : List PageChunk) :
    (extractFromPages svc chunks).items = (extractParallel svc chunks).items := by
  rw [extractFromPages_items, extractParallel_items]

/-- Observer projecting an item's numeric `total` field (0 otherwise). -/
def totalOf (item : JVal) : Rat :=
  match getField item "total" with
  | some (.num q) => q
  | _ => 0

/-- First counterexample item: description `"X"`, total 1. -/
def cexItemA : JVal := .obj [("description", .str "X"), ("total", .num 1)]

/-- Second counterexample item: description `"x "` (same dedup key as
`cexItemA` after lower-casing and trimming), total 2. -/
def cexItemB : JVal := .obj [("description", .str "x "), ("total", .num 2)]

/-- First chunk of the completion-order counterexample. -/
def cexChunk1 : PageChunk := { content := "one", pageNumber := 1 }

/-- Second chunk of the completion-order counterexample. -/
def cexChunk2 : PageChunk := { content := "two", pageNumber := 2 }

/-- Input order of the completion-order counterexample. -/
def cexChunks : List PageChunk := [cexChunk1, cexChunk2]

/-- Completion order of the counterexample: chunk 2 finishes first. -/
def cexCompletionOrder : List PageChunk := [cexChunk2, cexChunk1]

/-- Deterministic service of the completion-order counterexample. -/
def cexSvc (content : String) : Except ExError (List JVal) :=
  if content = "one" then .ok [cexItemA] else .ok [cexItemB]

/-- Counterexample to claim C5 as stated: in bounded-parallel mode the
code concatenates successful items in input order (the order `Promise.all`
assembles results), not completion order.  With chunk 2 completing before
chunk 1 and two distinct items sharing a dedup key, deduplicating the
completion-order concatenation keeps a different item than the pipeline
returns. -/
theorem extractParallel_completion_order_counterexample :
    cexCompletionOrder.Perm cexChunks ∧
    (extractParallel cexSvc cexChunks).items ≠
      deduplicateItems ((((cexCompletionOrder.map (processChunk cexSvc)).filter
        fun pr => pr.success).map fun pr => pr.items).flatten) := by
  constructor
  · decide
  · intro h
    have h2 := congrArg (fun l => l.map totalOf) h
    exact absurd h2 (by decide)

/-! ### Average confidence (claim C6) -/

lemma confidence_num_of_isSome (x : JVal) (h : (confidenceOf x).isSome = true) :
    ∃ q, getField x "confidence" = some (.num q) := by
  unfold confidenceOf at h
  cases hg : getField x "confidence" with
  | none => rw [hg] at h; exact Bool.noConfusion h
  | some v =>
    cases v with
    | num q => exact ⟨q, rfl⟩
    | null => rw [hg] at h; exact Bool.noConfusion h
    | bool b => rw [hg] at h; exact Bool.noConfusion h
    | str s => rw [hg] at h; exact Bool.noConfusion h
    | arr es => rw [hg] at h; exact Bool.noConfusion h
    | obj fs => rw [hg] at h; exact Bool.noConfusion h

lemma map_confOrZero_eq_filterMap (l : List JVal)
    (h : ∀ item ∈ l, (confidenceOf item).isSome = true) :
    l.map confOrZero = l.filterMap confidenceOf := by
  induction l with
  | nil => rfl
  | cons x xs ih =>
    obtain ⟨q, hq⟩ := confidence_num_of_isSome x (h x (List.mem_cons_self _ _))
    have h1 : confOrZero x = q := by unfold confOrZero; rw [hq]
    have h2 : confidenceOf x = some q := by unfold confidenceOf; rw [hq]
    rw [List.map_cons, List.filterMap_cons, h2, h1,
      ih fun y hy => h y (List.mem_cons_of_mem _ hy)]

lemma foldl_confOrZero :
    ∀ (l : List JVal) (a : Rat),
      l.foldl (fun sum item => sum + confOrZero item) a = a + (l.map confOrZero).sum := by
  intro l
  induction l with
  | nil => intro a; simp
  | cons x xs ih =>
    intro a
    simp only [List.foldl_cons, List.map_cons, List.sum_cons]
    rw [ih]
    ring

/-- Claim C6: `averageConfidence` is defined exactly when the item list is
non-empty and its first item has a numeric confidence; and (on lists whose
items all carry numeric confidences, so that the arithmetic mean of the
confidence field denotes) it equals that arithmetic mean. -/
theorem calculateAverageConfidence_spec (items : List JVal) :
    ((calculateAverageConfidence items).isSome = true ↔
      ∃ first rest, items = first :: rest ∧ (confidenceOf first).isSome = true) ∧
    ((∀ item ∈ items, (confidenceOf item).isSome = true) → items ≠ [] →
      calculateAverageConfidence items =
        some ((items.filterMap confidenceOf).sum / (items.length : Rat))) := by
  constructor
  · cases items with
    | nil =>
      simp [calculateAverageConfidence]
    | cons first rest =>
      constructor
      · intro h
        refine ⟨first, rest, rfl, ?_⟩
        simp only [calculateAverageConfidence] at h
        unfold confidenceOf
        cases hg : getField first "confidence" with
        | none => rw [hg] at h; exact Bool.noConfusion h
        | some v =>
          cases v with
          | num q => rfl
          | null => rw [hg] at h; exact Bool.noConfusion h
          | bool b => rw [hg] at h; exact Bool.noConfusion h
          | str s => rw [hg] at h; exact Bool.noConfusion h
          | arr es => rw [hg] at h; exact Bool.noConfusion h
          | obj fs => rw [hg] at h; exact Bool.noConfusion h
      · rintro ⟨f, r, heq, hs⟩
        obtain ⟨rfl, rfl⟩ : f = first ∧ r = rest := by
          have := List.cons.injEq first rest f r ▸ heq
          exact ⟨this.1.symm ▸ rfl, this.2.symm ▸ rfl⟩
        obtain ⟨q, hq⟩ := confidence_num_of_isSome f hs
        simp only [calculateAverageConfidence]
        rw [hq]
        rfl
  · intro hall hne
    cases items with
    | nil => exact absurd rfl hne
    | cons first rest =>
      obtain ⟨q, hq⟩ := confidence_num_of_isSome first (hall first (List.mem_cons_self _ _))
      simp only [calculateAverageConfidence]
      rw [hq]
      dsimp only
      congr 1
      rw [foldl_confOrZero, map_confOrZero_eq_filterMap _ hall]
      ring

/-- Concrete items, each carrying a numeric confidence. -/
def confItems : List JVal :=
  [.obj [("confidence", .num 1)], .obj [("confidence", .num 2)]]

/-- Witness for claim C6 on a concrete two-item list with confidences 1
and 2. -/
theorem calculateAverageConfidence_spec_witness :
    calculateAverageConfidence confItems =
      some ((confItems.filterMap confidenceOf).sum / (confItems.length : Rat)) :=
  (calculateAverageConfidence_spec confItems).2 (by decide)
    (fun h => List.noConfusion h)

/-! ### Streaming (claim C7) -/

lemma get_cons_eraseIdx_perm {α : Type} (l : List α) (i : Nat) (h : i < l.length) :
    (l.get ⟨i, h⟩ :: l.eraseIdx i).Perm l := by
  conv_rhs => rw [← List.take_append_drop i l]
  rw [List.eraseIdx_eq_take_drop_succ]
  have hd : l.drop i = l.get ⟨i, h⟩ :: l.drop (i + 1) := by
    rw [List.drop_eq_getElem_cons h, List.get_eq_getElem]
  rw [hd]
  exact List.perm_middle.symm

lemma racePool_perm :
    ∀ (order : List Nat) (pool : List PageExtractionResult),
      (racePool pool order).Perm pool := by
  intro order
  induction order with
  | nil =>
    intro pool
    cases pool with
    | nil => simp [racePool]
    | cons p ps => simp [racePool]
  | cons k rest ih =>
    intro pool
    cases pool with
    | nil => simp [racePool]
    | cons p ps =>
      simp only [racePool]
      refine List.Perm.trans (List.Perm.cons _ (ih _)) ?_
      exact get_cons_eraseIdx_perm (p :: ps) (k % (p :: ps).length)
        (Nat.mod_lt _ (Nat.succ_pos _))

lemma processChunk_pageNumber (svc : String → Except ExError (List JVal)) (c : PageChunk) :
    (processChunk svc c).pageNumber = c.pageNumber := by
  unfold processChunk
  cases rateLimiterExecute svc c.content (pageLabel c.pageNumber) with
  | ok its => rfl
  | error e => rfl

/-- Claim C7: for every completion order, streaming mode yields exactly
one result per chunk — the multiset of yielded sequence numbers equals the
multiset of input sequence numbers, so with the data model's unique
sequence numbers each appears exactly once, with no duplicates and no
omissions. -/
theorem extractStreaming_spec (svc : String → Except ExError (List JVal))
    (chunks : List PageChunk) (order : List Nat) :
    (extractStreaming svc chunks order).length = chunks.length ∧
    ((extractStreaming svc chunks order).map (fun r => r.pageNumber)).Perm
      (chunks.map (fun c => c.pageNumber)) := by
  have hperm : (extractStreaming svc chunks order).Perm (chunks.map (processChunk svc)) :=
    racePool_perm order _
  constructor
  · rw [hperm.length_eq, List.length_map]
  · refine (hperm.map (fun r => r.pageNumber)).trans ?_
    rw [List.map_map]
    have heq : (chunks.map ((fun r => r.pageNumber) ∘ processChunk svc)) =
        chunks.map (fun c => c.pageNumber) := by
      apply List.map_congr_left
      intro c _
      exact processChunk_pageNumber svc c
    rw [heq]

/-! ### Scheduler concurrency bound (claim C8) -/

/-- Events observable at the scheduler: a task's call starts (is admitted)
or a call completes. -/
inductive SchedEvent where
  | callStart
  | callFinish
deriving DecidableEq, Repr

/-- Modelled from the spec: `rate-limiter.ts` is not under the given
sources.  Per spec §4.1, admission grants a start only while the in-flight
count is below `maxConcurrent` (an attempted start while saturated keeps
waiting, leaving the count unchanged), and a completion decrements the
in-flight count.  Spacing affects only timing, not the in-flight count,
and is not modelled. -/
def rateLimiterStep (maxConcurrent inFlight : Nat) : SchedEvent → Nat
  | .callStart => if inFlight < maxConcurrent then inFlight + 1 else inFlight
  | .callFinish => inFlight - 1

/-- The sequence of in-flight counts traversed by an event trace. -/
def rateLimiterStates (maxConcurrent inFlight : Nat) : List SchedEvent → List Nat
  | [] => [inFlight]
  | e :: rest =>
    inFlight :: rateLimiterStates maxConcurrent (rateLimiterStep maxConcurrent inFlight e) rest

/-- Trace of 5 chunks through a scheduler with `maxConcurrent = 2`: all
five tasks are submitted, and two calls are in flight whenever work
remains. -/
def fiveChunkTrace : List SchedEvent :=
  [.callStart, .callStart, .callFinish, .callStart, .callFinish,
   .callStart, .callFinish, .callStart, .callFinish, .callFinish]

lemma rateLimiterStep_le (k s : Nat) (e : SchedEvent) (hs : s ≤ k) :
    rateLimiterStep k s e ≤ k := by
  cases e with
  | callStart =>
    show (if s < k then s + 1 else s) ≤ k
    by_cases h : s < k
    · rw [if_pos h]; omega
    · rw [if_neg h]; exact hs
  | callFinish =>
    show s - 1 ≤ k
    omega

lemma rateLimiterStates_le (k : Nat) :
    ∀ (evs : List SchedEvent) (s : Nat), s ≤ k → ∀ t ∈ rateLimiterStates k s evs, t ≤ k := by
  intro evs
  induction evs with
  | nil =>
    intro s hs t ht
    simp only [rateLimiterStates, List.mem_singleton] at ht
    omega
  | cons e rest ih =>
    intro s hs t ht
    simp only [rateLimiterStates, List.mem_cons] at ht
    rcases ht with rfl | ht
    · exact hs
    · exact ih (rateLimiterStep k s e) (rateLimiterStep_le k s e hs) t ht

/-- Claim C8 (scheduler modelled from the spec): along any event trace
starting idle, the number of admitted-but-not-completed calls never
exceeds `maxConcurrent`; and on the five-chunk trace with
`maxConcurrent = 2` the maximum observed in-flight count is exactly 2. -/
theorem rateLimiter_inflight_bound :
    (∀ (k : Nat) (evs : List SchedEvent) (t : Nat),
      t ∈ rateLimiterStates k 0 evs → t ≤ k) ∧
    (rateLimiterStates 2 0 fiveChunkTrace).foldl max 0 = 2 := by
  constructor
  · intro k evs t ht
    exact rateLimiterStates_le k evs 0 (Nat.zero_le k) t ht
  · decide

/-- Witness for claim C8: the five-chunk trace actually reaches an
in-flight count of 2, and the bound theorem applies to it. -/
theorem rateLimiter_inflight_bound_witness :
    2 ∈ rateLimiterStates 2 0 fiveChunkTrace ∧ 2 ≤ 2 :=
  ⟨by decide, rateLimiter_inflight_bound.1 2 fiveChunkTrace 2 (by decide)⟩
